import Mathlib

/-!
Verification of the codex-roles-cli repository core against its specification.

The TypeScript sources are shallowly embedded: JS strings are modelled as
Lean `String`s (with character lists `String.data` for the primitive string
operations), filesystem and subprocess effects are modelled by explicit
oracles passed as arguments, and fallible functions return `Except`.
-/

namespace CodexRoles

/-- JS `String.prototype.split` with a one-character separator: splits on every
occurrence, keeping empty pieces (leading, trailing and between adjacent
separators), over character lists. -/
def splitOnChar (sep : Char) : List Char → List (List Char)
  | [] => [[]]
  | c :: rest =>
    if c = sep then [] :: splitOnChar sep rest
    else
      match splitOnChar sep rest with
      | [] => [[c]]
      | h :: t => (c :: h) :: t

/-- JS `String.prototype.startsWith`. -/
def strStartsWith (s pre : String) : Bool := decide (pre.data <+: s.data)

/-- JS `String.prototype.endsWith`. -/
def strEndsWith (s suf : String) : Bool := decide (suf.data <:+ s.data)

/-- JS `String.prototype.includes`. -/
def strIncludes (s sub : String) : Bool := decide (sub.data <:+: s.data)

/-- JS `String.prototype.toLowerCase` on ASCII data. -/
def strToLower (s : String) : String := String.mk (s.data.map Char.toLower)

/-- `DEFAULT_IGNORES` from `src/retrieve.ts`. -/
def DEFAULT_IGNORES : List String :=
  ["node_modules", ".git", "dist", "build", ".next", "DerivedData", "derived data", "vendor"]

/-- `SENSITIVE_EXTENSIONS` from `src/retrieve.ts`. -/
def SENSITIVE_EXTENSIONS : List String :=
  [".env", ".key", ".pem", ".crt", ".p12", ".pfx", ".cer"]

/-- `SENSITIVE_FILENAMES` from `src/retrieve.ts`. -/
def SENSITIVE_FILENAMES : List String :=
  [".env", ".env.local", ".env.production", ".env.development"]

/-- Node `path.basename` (POSIX): the part after the final separator.
The embedding covers inputs without a trailing separator, which is every
path the sources pass to it. -/
def basename (p : String) : String := String.mk ((splitOnChar '/' p.data).getLastD [])

/-- The suffix of a character list starting at its last dot (inclusive);
`[]` when there is no dot. -/
def extSuffix : List Char → List Char
  | [] => []
  | c :: rest =>
    let r := extSuffix rest
    if r.isEmpty then (if c = '.' then c :: rest else []) else r

/-- Node `path.extname` applied to a basename: the substring from the last
dot, except that a dot in the leading position starts no extension
(`extname ".env" = ""`). -/
def extname (b : String) : String :=
  match b.data with
  | [] => ""
  | c :: rest => if c = '.' then String.mk (extSuffix rest) else String.mk (extSuffix (c :: rest))

/-- `isSensitivePath` from `src/retrieve.ts`. -/
def isSensitivePath (resolvedPath : String) : Bool :=
  let base := strToLower (basename resolvedPath)
  SENSITIVE_FILENAMES.contains base ||
  SENSITIVE_EXTENSIONS.contains (extname base) ||
  strIncludes base "secret" || strIncludes base "certificate" || strIncludes base "private"

/-- `containsIgnoredSegment` from `src/retrieve.ts`: splits on `path.sep`
(`/` on POSIX), lowercases every segment, and tests membership of each
lowercased ignore name. -/
def containsIgnoredSegment (resolvedPath : String) : Bool :=
  let segments := (splitOnChar '/' resolvedPath.data).map (fun cs => String.mk (cs.map Char.toLower))
  DEFAULT_IGNORES.any (fun ignore => segments.contains (strToLower ignore))

/-- One step of POSIX path normalisation over a reversed segment stack:
empty and `.` segments are dropped, `..` pops (and is dropped at the
root), anything else is pushed. -/
def normStep (stack : List String) (seg : String) : List String :=
  if seg = "" || seg = "." then stack
  else if seg = ".." then stack.tail
  else seg :: stack

/-- Node `path.resolve(root, input)` for an absolute `root` (the only way the
sources call it): an absolute `input` overrides `root`, otherwise the two are
joined; the result is normalised (`.`, `..`, empty segments). -/
def pathResolve (root input : String) : String :=
  let combined := if strStartsWith input "/" then input else root ++ "/" ++ input
  let segs := (splitOnChar '/' combined.data).map String.mk
  let stack := segs.foldl normStep []
  "/" ++ String.intercalate "/" stack.reverse

/-- `resolveSafePath` from `src/retrieve.ts`: resolve against `root`, then
reject when the resolved string does not start with `root`, is sensitive, or
contains an ignored segment. -/
def resolveSafePath (root inputPath : String) : Except String String :=
  let resolved := pathResolve root inputPath
  if !strStartsWith resolved root then
    Except.error ("Refusing to access path outside repo: " ++ inputPath)
  else if isSensitivePath resolved then
    Except.error ("Refusing to access sensitive path: " ++ inputPath)
  else if containsIgnoredSegment resolved then
    Except.error ("Refusing to access ignored path: " ++ inputPath)
  else
    Except.ok resolved

/-- `p` has `root` in its ancestor chain: it is `root` itself or lies
strictly below `root`. -/
def isDescendant (root p : String) : Bool :=
  p = root || strStartsWith p (root ++ "/")

/-- JS `String.prototype.replace` with a non-empty string pattern (not a
regex): deletes the first occurrence of `pat`, leaving the list unchanged
when `pat` does not occur. -/
def replaceFirst (pat : List Char) : List Char → List Char
  | [] => []
  | c :: rest =>
    if pat.isPrefixOf (c :: rest) then List.drop pat.length (c :: rest)
    else c :: replaceFirst pat rest

/-- A line matches the header regex of `extractFilesFromDiff`
(`^diff --git a\/(.+?) b\/(.+)$`, per line under the `gm` flags) iff it
starts with `diff --git a/` and the remainder splits as `s ++ " b/" ++ t`
with `s` and `t` non-empty — equivalently, `" b/"` occurs inside the
remainder with its first character dropped (start at index at least one)
and its last character dropped (at least one character follows). -/
def headerMatch (line : List Char) : Bool :=
  ("diff --git a/".data.isPrefixOf line) &&
  decide ((' ' :: 'b' :: '/' :: []) <:+: (line.drop 13).tail.dropLast)

/-- The per-header extraction of `extractFilesFromDiff` in `src/patch.ts`:
the third space-separated token of the matched line (`parts[2]`, the
`a/`-prefixed token cut at the first space) with the first occurrence of
the substring `b/` deleted. -/
def extractFileFromLine (line : List Char) : List Char :=
  replaceFirst ('b' :: '/' :: []) ((splitOnChar ' ' line).getD 2 [])

/-- `extractFilesFromDiff` from `src/patch.ts`: collect the lines matching
the header regex, extract a token from each, and keep the non-empty ones
(`files.filter(Boolean)`). -/
def extractFilesFromDiff (diff : String) : List String :=
  (((splitOnChar '\n' diff.data).filter headerMatch).map
    (fun l => String.mk (extractFileFromLine l))).filter (fun s => s != "")

/-- `PatchOptions` from `src/patch.ts`; `allowDelete` defaults to `false` and
`allowedExtensions` to absent at the destructuring in `applyPatch`, so both
are stored explicitly here. -/
structure PatchOptions where
  root : String
  allowDelete : Bool
  allowedExtensions : Option (List String)

/-- The extension allowlist test of `applyPatch`: vacuously true when no
allowlist is given, otherwise some allowed suffix must end the file path. -/
def extensionOk (allowedExtensions : Option (List String)) (file : String) : Bool :=
  match allowedExtensions with
  | none => true
  | some exts => exts.any (fun ext => strEndsWith file ext)

/-- All three per-file checks of `applyPatch`'s loop, as one Boolean. -/
def fileOk (opts : PatchOptions) (file : String) : Bool :=
  !isSensitivePath file && !containsIgnoredSegment file &&
    extensionOk opts.allowedExtensions file

/-- The body of `applyPatch`'s per-file loop: the first failing check
throws its error. -/
def checkFile (opts : PatchOptions) (file : String) : Except String Unit :=
  if isSensitivePath file then
    Except.error ("Refusing to patch sensitive path: " ++ file)
  else if containsIgnoredSegment file then
    Except.error ("Refusing to patch ignored path: " ++ file)
  else if !extensionOk opts.allowedExtensions file then
    Except.error ("Refusing to patch non-allowed file: " ++ file)
  else Except.ok ()

/-- `applyPatch`'s `for` loop over the extracted files. -/
def checkFiles (opts : PatchOptions) : List String → Except String Unit
  | [] => Except.ok ()
  | f :: rest =>
    match checkFile opts f with
    | Except.error e => Except.error e
    | Except.ok _ => checkFiles opts rest

/-- `applyPatch` from `src/patch.ts`.  A successful result carries the pair
handed to the external process (`applyViaStdin(diff, root)`: the diff written
to `git apply`'s stdin and the working directory); an error is the thrown
exception, produced before any process is spawned. -/
def applyPatch (diff : String) (opts : PatchOptions) : Except String (String × String) :=
  let files := extractFilesFromDiff diff
  if files.isEmpty then Except.error "No files found in diff output."
  else
    match checkFiles opts files with
    | Except.error e => Except.error e
    | Except.ok _ =>
      if !opts.allowDelete && strIncludes diff "deleted file mode" then
        Except.error "Refusing to delete files without an explicit request."
      else Except.ok (diff, opts.root)

theorem checkFile_ok_iff (opts : PatchOptions) (file : String) :
    checkFile opts file = Except.ok () ↔ fileOk opts file = true := by
  unfold checkFile fileOk
  split <;> rename_i h₁
  · simp [h₁]
  · split <;> rename_i h₂
    · simp [h₁, h₂]
    · split <;> rename_i h₃
      · simp at h₃
        simp [h₁, h₂, h₃]
      · simp at h₃
        simp [h₁, h₂, h₃]

theorem checkFiles_ok_iff (opts : PatchOptions) (fs : List String) :
    checkFiles opts fs = Except.ok () ↔ ∀ f ∈ fs, fileOk opts f = true := by
  induction fs with
  | nil => simp [checkFiles]
  | cons f rest ih =>
    unfold checkFiles
    rcases hcf : checkFile opts f with e | u
    · constructor
      · intro h
        exact absurd h (by simp)
      · intro h
        have : checkFile opts f = Except.ok () := (checkFile_ok_iff opts f).mpr (h f (by simp))
        rw [hcf] at this
        exact absurd this (by simp)
    · have hf : fileOk opts f = true := by
        have : checkFile opts f = Except.ok () := by rw [hcf]
        exact (checkFile_ok_iff opts f).mp this
      simp only []
      rw [ih]
      constructor
      · intro h g hg
        rcases List.mem_cons.mp hg with rfl | hg'
        · exact hf
        · exact h g hg'
      · intro h g hg
        exact h g (List.mem_cons_of_mem f hg)

theorem applyPatch_ok_iff (diff : String) (opts : PatchOptions) (payload : String × String) :
    applyPatch diff opts = Except.ok payload ↔
      (payload = (diff, opts.root) ∧ extractFilesFromDiff diff ≠ [] ∧
       (∀ f ∈ extractFilesFromDiff diff, fileOk opts f = true) ∧
       (opts.allowDelete = true ∨ strIncludes diff "deleted file mode" = false)) := by
  unfold applyPatch
  by_cases he : (extractFilesFromDiff diff).isEmpty
  · simp [he, List.isEmpty_iff.mp he]
  · simp only [he, if_false, Bool.false_eq_true]
    have hne : extractFilesFromDiff diff ≠ [] := by
      intro h
      rw [h] at he
      exact he rfl
    rcases hcf : checkFiles opts (extractFilesFromDiff diff) with e | u
    · have hnall : ¬ ∀ f ∈ extractFilesFromDiff diff, fileOk opts f = true := by
        intro hall
        have := (checkFiles_ok_iff opts (extractFilesFromDiff diff)).mpr hall
        rw [hcf] at this
        exact absurd this (by simp)
      simp [hnall]
    · have hall : ∀ f ∈ extractFilesFromDiff diff, fileOk opts f = true := by
        apply (checkFiles_ok_iff opts (extractFilesFromDiff diff)).mp
        rw [hcf]
      by_cases hd : (!opts.allowDelete && strIncludes diff "deleted file mode") = true
      · have : ¬ (opts.allowDelete = true ∨ strIncludes diff "deleted file mode" = false) := by
          simp only [Bool.and_eq_true, Bool.not_eq_true'] at hd
          simp [hd.1, hd.2]
        simp [hd, hne, hall, this]
      · have hpol : opts.allowDelete = true ∨ strIncludes diff "deleted file mode" = false := by
          simp only [Bool.and_eq_true, Bool.not_eq_true'] at hd
          rcases Bool.eq_false_or_eq_true opts.allowDelete with h | h
          · left
            exact h
          · right
            by_contra hc
            simp only [Bool.not_eq_false] at hc
            exact hd ⟨h, hc⟩
        simp only [hd, if_false]
        constructor
        · intro h
          have : payload = (diff, opts.root) := by
            have := h
            simp at this
            exact this.symm ▸ rfl
          exact ⟨this, hne, hall, hpol⟩
        · intro h
          simp [h.1]

/-- C2: `applyPatch` hands the diff to the external apply process exactly
when every structural check passes — the extracted file list is non-empty,
every extracted file passes the sensitivity, ignored-segment and optional
extension-allowlist checks, and the deletion policy is satisfied; when any
check fails the result is the thrown error and no process payload is
produced, and a successful payload is exactly the unmodified diff with the
target root. -/
theorem applyPatch_spawns_iff_checks_pass (diff : String) (opts : PatchOptions) :
    ((∃ payload, applyPatch diff opts = Except.ok payload) ↔
      (extractFilesFromDiff diff ≠ [] ∧
       (∀ f ∈ extractFilesFromDiff diff, fileOk opts f = true) ∧
       (opts.allowDelete = true ∨ strIncludes diff "deleted file mode" = false))) ∧
    (∀ payload, applyPatch diff opts = Except.ok payload → payload = (diff, opts.root)) := by
  constructor
  · constructor
    · rintro ⟨payload, hp⟩
      have := (applyPatch_ok_iff diff opts payload).mp hp
      exact ⟨this.2.1, this.2.2.1, this.2.2.2⟩
    · intro h
      exact ⟨(diff, opts.root), (applyPatch_ok_iff diff opts (diff, opts.root)).mpr ⟨rfl, h.1, h.2.1, h.2.2⟩⟩
  · intro payload hp
    exact ((applyPatch_ok_iff diff opts payload).mp hp).1

/-- Witness for C2 at a concrete accepted diff: every check passes and the
exact diff/root pair is handed on. -/
theorem applyPatch_spawns_iff_checks_pass_witness :
    applyPatch "diff --git a/README.md b/README.md" (PatchOptions.mk "/repo" false none) =
      Except.ok ("diff --git a/README.md b/README.md", "/repo") := by
  have h := applyPatch_spawns_iff_checks_pass "diff --git a/README.md b/README.md"
    (PatchOptions.mk "/repo" false none)
  rcases h.1.mpr ⟨by decide, by decide, by decide⟩ with ⟨payload, hp⟩
  have := h.2 payload hp
  rw [this] at hp
  exact hp

/-- C3: the deletion policy of `applyPatch` — any diff containing the
`deleted file mode` marker is rejected when `allowDelete` is `false`, and an
otherwise-valid deleting diff (non-empty file list, all per-file checks
passing) is accepted when `allowDelete` is `true`. -/
theorem applyPatch_delete_policy (diff : String) (opts : PatchOptions) :
    (opts.allowDelete = false → strIncludes diff "deleted file mode" = true →
       ∃ e, applyPatch diff opts = Except.error e) ∧
    (opts.allowDelete = true → extractFilesFromDiff diff ≠ [] →
       (∀ f ∈ extractFilesFromDiff diff, fileOk opts f = true) →
       applyPatch diff opts = Except.ok (diff, opts.root)) := by
  constructor
  · intro had hmark
    rcases hr : applyPatch diff opts with e | payload
    · exact ⟨e, rfl⟩
    · have := (applyPatch_ok_iff diff opts payload).mp hr
      rcases this.2.2.2 with h | h
      · rw [had] at h
        exact absurd h (by simp)
      · rw [hmark] at h
        exact absurd h (by simp)
  · intro had hne hall
    exact (applyPatch_ok_iff diff opts (diff, opts.root)).mpr ⟨rfl, hne, hall, Or.inl had⟩

/-- Witness for C3 at a concrete deleting diff: rejected with
`allowDelete = false`, accepted with `allowDelete = true`. -/
theorem applyPatch_delete_policy_witness :
    (∃ e, applyPatch "diff --git a/old.txt b/old.txt\ndeleted file mode 100644"
        (PatchOptions.mk "/repo" false none) = Except.error e) ∧
    applyPatch "diff --git a/old.txt b/old.txt\ndeleted file mode 100644"
        (PatchOptions.mk "/repo" true none) =
      Except.ok ("diff --git a/old.txt b/old.txt\ndeleted file mode 100644", "/repo") := by
  constructor
  · exact (applyPatch_delete_policy "diff --git a/old.txt b/old.txt\ndeleted file mode 100644"
      (PatchOptions.mk "/repo" false none)).1 rfl (by decide)
  · exact (applyPatch_delete_policy "diff --git a/old.txt b/old.txt\ndeleted file mode 100644"
      (PatchOptions.mk "/repo" true none)).2 rfl (by decide) (by decide)

/-- C1: claimed — whenever `resolveSafePath root inputPath` returns a path,
that path is a descendant of `root`.  The code checks only
`resolved.startsWith(root)`, a raw string-prefix test, so a sibling
directory whose name extends `root`'s name slips through: with root
`/repo`, the input `../repo-evil` resolves to `/repo-evil`, passes every
check, and is returned although `/repo` is not in its ancestor chain.  The
function's own error message ("Refusing to access path outside repo") and
the specification agree on the intent, so this is a code bug. -/
theorem resolveSafePath_escapes_root :
    resolveSafePath "/repo" "../repo-evil" = Except.ok "/repo-evil" ∧
    isDescendant "/repo" "/repo-evil" = false := by
  constructor
  · rfl
  · rfl

/-- JSON values, as produced by `JSON.parse`: the numeric payload is opaque
to the validators (they only test `typeof === "number"`), so it is carried
as an integer. -/
inductive JValue where
  | null
  | bool (b : Bool)
  | num (q : Int)
  | str (s : String)
  | arr (items : List JValue)
  | obj (fields : List (String × JValue))

/-- JS property access `record[key]` on a parsed JSON value: a lookup on an
object's fields (keys taken distinct, as `JSON.parse` keeps one binding per
key), `undefined` (`none`) on an array, and unreachable otherwise. -/
def getField : JValue → String → Option JValue
  | JValue.obj fields, key => (fields.find? (fun kv => kv.1 == key)).map (fun kv => kv.2)
  | _, _ => none

/-- The JS guard `typeof value === "object" && value !== null`: objects and
arrays pass, `null` is excluded explicitly, primitives fail. -/
def isObjectLike : JValue → Bool
  | JValue.obj _ => true
  | JValue.arr _ => true
  | _ => false

/-- `TASK_TYPES` from `src/schema.ts`. -/
def TASK_TYPES : List String :=
  ["code.change", "code.analysis", "docs.write", "docs.analysis", "research", "misc.text"]

/-- `Classification` from `src/schema.ts`. -/
structure Classification where
  taskType : String
  confidence : Int
  notes : String

/-- `validateClassification` from `src/schema.ts`: object shape, then
`isTaskType` (a string member of `TASK_TYPES`), then numeric confidence,
then string notes; the first failing check throws. -/
def validateClassification (value : JValue) : Except String Classification :=
  if !isObjectLike value then Except.error "Classification must be an object."
  else
    match getField value "taskType" with
    | some (JValue.str s) =>
      if TASK_TYPES.contains s then
        match getField value "confidence" with
        | some (JValue.num q) =>
          match getField value "notes" with
          | some (JValue.str n) => Except.ok (Classification.mk s q n)
          | _ => Except.error "Classification.notes must be a string."
        | _ => Except.error "Classification.confidence must be a number."
      else Except.error "Classification.taskType is invalid."
    | _ => Except.error "Classification.taskType is invalid."

theorem validateClassification_ok_iff (value : JValue) (c : Classification) :
    validateClassification value = Except.ok c ↔
      (isObjectLike value = true ∧
       getField value "taskType" = some (JValue.str c.taskType) ∧
       TASK_TYPES.contains c.taskType = true ∧
       getField value "confidence" = some (JValue.num c.confidence) ∧
       getField value "notes" = some (JValue.str c.notes)) := by
  unfold validateClassification
  by_cases ho : isObjectLike value = true
  · simp only [ho, Bool.not_true, Bool.false_eq_true, if_false, true_and]
    rcases hT : getField value "taskType" with _ | jv
    · simp [hT]
    · cases jv with
      | str s =>
        by_cases hs : TASK_TYPES.contains s = true
        · simp only [hs, if_true]
          rcases hC : getField value "confidence" with _ | jc
          · simp [hC]
          · cases jc with
            | num q =>
              rcases hN : getField value "notes" with _ | jn
              · simp [hN]
              · cases jn with
                | str n =>
                  simp only [hN, Option.some.injEq]
                  constructor
                  · intro h
                    have hc : c = Classification.mk s q n := by
                      cases h
                      rfl
                    subst hc
                    exact ⟨rfl, hs, rfl, rfl⟩
                  · rintro ⟨h₁, _, h₂, h₃⟩
                    simp only [Option.some.injEq, JValue.str.injEq, JValue.num.injEq] at h₁ h₂ h₃
                    rw [h₁, h₂, h₃]
                | null => simp [hN]
                | bool b => simp [hN]
                | num q2 => simp [hN]
                | arr a => simp [hN]
                | obj o => simp [hN]
            | null => simp [hC]
            | bool b => simp [hC]
            | str s2 => simp [hC]
            | arr a => simp [hC]
            | obj o => simp [hC]
        · simp only [hs, Bool.false_eq_true, if_false]
          constructor
          · intro h
            exact absurd h (by simp)
          · rintro ⟨h₁, h₂, _⟩
            simp only [Option.some.injEq, JValue.str.injEq] at h₁
            rw [← h₁] at h₂
            exact absurd h₂ hs
      | null => simp [hT]
      | bool b => simp [hT]
      | num q => simp [hT]
      | arr a => simp [hT]
      | obj o => simp [hT]
  · have ho' : isObjectLike value = false := by
      rcases Bool.eq_false_or_eq_true (isObjectLike value) with h | h
      · exact absurd h ho
      · exact h
    simp [ho']

/-- C7: `validateClassification` accepts only values whose `taskType` is a
string in the fixed closed set `TASK_TYPES`; a value whose `taskType` is
not such a member, whose `confidence` is not a number, or whose `notes` is
not a string makes it throw a validation error rather than substitute a
default. -/
theorem validateClassification_requires_known_taskType (value : JValue) :
    (∀ c, validateClassification value = Except.ok c →
       TASK_TYPES.contains c.taskType = true ∧
       getField value "taskType" = some (JValue.str c.taskType)) ∧
    ((∀ s, getField value "taskType" = some (JValue.str s) → TASK_TYPES.contains s = false) →
       ∃ e, validateClassification value = Except.error e) ∧
    ((∀ q, ¬ getField value "confidence" = some (JValue.num q)) →
       ∃ e, validateClassification value = Except.error e) ∧
    ((∀ n, ¬ getField value "notes" = some (JValue.str n)) →
       ∃ e, validateClassification value = Except.error e) := by
  refine ⟨?_, ?_, ?_, ?_⟩
  · intro c hc
    have h := (validateClassification_ok_iff value c).mp hc
    exact ⟨h.2.2.1, h.2.1⟩
  · intro hbad
    rcases hr : validateClassification value with e | c
    · exact ⟨e, rfl⟩
    · have h := (validateClassification_ok_iff value c).mp hr
      have := hbad c.taskType h.2.1
      rw [h.2.2.1] at this
      exact absurd this (by simp)
  · intro hbad
    rcases hr : validateClassification value with e | c
    · exact ⟨e, rfl⟩
    · have h := (validateClassification_ok_iff value c).mp hr
      exact absurd h.2.2.2.1 (hbad c.confidence)
  · intro hbad
    rcases hr : validateClassification value with e | c
    · exact ⟨e, rfl⟩
    · have h := (validateClassification_ok_iff value c).mp hr
      exact absurd h.2.2.2.2 (hbad c.notes)

/-- Witness for C7: a classification whose `taskType` is the unknown string
`weird.type` is rejected. -/
theorem validateClassification_requires_known_taskType_witness :
    ∃ e, validateClassification (JValue.obj [("taskType", JValue.str "weird.type")]) =
      Except.error e := by
  apply (validateClassification_requires_known_taskType
    (JValue.obj [("taskType", JValue.str "weird.type")])).2.1
  intro s hs
  have h0 : getField (JValue.obj [("taskType", JValue.str "weird.type")]) "taskType" =
      some (JValue.str "weird.type") := rfl
  rw [h0] at hs
  simp only [Option.some.injEq, JValue.str.injEq] at hs
  rw [← hs]
  decide

/-- `SessionRecord` from `src/session.ts`; history entries are opaque JSON
payloads. -/
structure SessionRecord where
  id : String
  createdAt : String
  updatedAt : String
  summary : String
  history : List JValue

/-- The sanitisation in `getSessionPath`:
`sessionId.replace(/[^a-zA-Z0-9_-]/g, "_")`. -/
def sanitizeId (sessionId : String) : String :=
  String.mk (sessionId.data.map (fun c => if c.isAlphanum || c == '_' || c == '-' then c else '_'))

/-- `getSessionPath` from `src/session.ts`; `path.join(root, ".codex-roles",
safeId + ".json")` is modelled as separator concatenation, exact for a root
without a trailing separator. -/
def getSessionPath (root sessionId : String) : String :=
  root ++ "/.codex-roles/" ++ sanitizeId sessionId ++ ".json"

/-- C8 counterexample: the claimed 1:1 mapping from session ids to persisted
files fails — the distinct ids `a.b` and `a_b` are sanitised to the same
file name. -/
theorem getSessionPath_not_injective :
    getSessionPath "/repo" "a.b" = getSessionPath "/repo" "a_b" ∧
    ("a.b" : String) ≠ "a_b" := by
  constructor
  · rfl
  · decide

/-- C8 (amended): every session id maps to a file named `<sanitised>.json`
directly under the fixed hidden directory `.codex-roles` inside the target
root, where the sanitised name consists only of ASCII alphanumerics,
underscore and hyphen (every other character is replaced by `_`); the
mapping is not injective. -/
theorem getSessionPath_under_hidden_dir (root sessionId : String) :
    ∃ name, getSessionPath root sessionId = root ++ "/.codex-roles/" ++ name ++ ".json" ∧
      ∀ c ∈ name.data, (c.isAlphanum || c == '_' || c == '-') = true := by
  refine ⟨sanitizeId sessionId, rfl, ?_⟩
  intro c hc
  have hc' : c ∈ sessionId.data.map
      (fun c => if c.isAlphanum || c == '_' || c == '-' then c else '_') := hc
  rcases List.mem_map.mp hc' with ⟨a, _, rfl⟩
  by_cases h : (a.isAlphanum || a == '_' || a == '-') = true
  · simp [h]
  · rw [if_neg h]
    decide

/-- Witness for C8's amended statement at a concrete root and id. -/
theorem getSessionPath_under_hidden_dir_witness :
    ∃ name, getSessionPath "/repo" "user session!" =
        "/repo" ++ "/.codex-roles/" ++ name ++ ".json" ∧
      ∀ c ∈ name.data, (c.isAlphanum || c == '_' || c == '-') = true :=
  getSessionPath_under_hidden_dir "/repo" "user session!"

/-- The two outcomes of `loadSession`: the parsed JSON returned as-is (the
code casts without shape validation), or a fresh record built in the catch
block. -/
inductive LoadResult where
  | parsed (v : JValue)
  | fresh (r : SessionRecord)

/-- `loadSession` from `src/session.ts`.  The filesystem read is the oracle
`readFile` (`none` models a thrown read error such as an absent or
unreadable file), `JSON.parse` is the oracle `parse` (`none` models a parse
exception), and `now` is the single `new Date().toISOString()` value
produced in the catch block.  The `try/catch` covers both the read and the
parse, so the function always returns. -/
def loadSession (readFile : String → Option String) (parse : String → Option JValue)
    (now root sessionId : String) : LoadResult :=
  let sessionPath := getSessionPath root sessionId
  match readFile sessionPath with
  | none => LoadResult.fresh (SessionRecord.mk sessionId now now "" [])
  | some raw =>
    match parse raw with
    | none => LoadResult.fresh (SessionRecord.mk sessionId now now "" [])
    | some v => LoadResult.parsed v

/-- C10: `loadSession` is total (its translation needs no error outcome: the
`try/catch` swallows every read and parse failure); on a failed read or on
malformed JSON it returns a fresh record whose id is the original —
unsanitised — session id, with empty summary, empty history, and
`createdAt` equal to `updatedAt`; and a file that parses as JSON is
returned as-is, with no shape validation. -/
theorem loadSession_total_with_fresh_fallback (readFile : String → Option String)
    (parse : String → Option JValue) (now root sessionId : String) :
    (readFile (getSessionPath root sessionId) = none →
      loadSession readFile parse now root sessionId =
        LoadResult.fresh (SessionRecord.mk sessionId now now "" [])) ∧
    (∀ raw, readFile (getSessionPath root sessionId) = some raw → parse raw = none →
      loadSession readFile parse now root sessionId =
        LoadResult.fresh (SessionRecord.mk sessionId now now "" [])) ∧
    (∀ raw v, readFile (getSessionPath root sessionId) = some raw → parse raw = some v →
      loadSession readFile parse now root sessionId = LoadResult.parsed v) := by
  refine ⟨?_, ?_, ?_⟩
  · intro h
    simp [loadSession, h]
  · intro raw h₁ h₂
    simp [loadSession, h₁, h₂]
  · intro raw v h₁ h₂
    simp [loadSession, h₁, h₂]

/-- Witness for C10: with an absent session file and an id needing
sanitisation, the fresh record keeps the original id and equal
timestamps. -/
theorem loadSession_total_with_fresh_fallback_witness :
    loadSession (fun _ => none) (fun _ => none) "2024-01-01T00:00:00.000Z" "/repo" "a.b" =
      LoadResult.fresh (SessionRecord.mk "a.b" "2024-01-01T00:00:00.000Z"
        "2024-01-01T00:00:00.000Z" "" []) :=
  (loadSession_total_with_fresh_fallback (fun _ => none) (fun _ => none)
    "2024-01-01T00:00:00.000Z" "/repo" "a.b").1 rfl

/-- A directory entry as seen by `fs.readdir(..., withFileTypes)`: a file
or a directory with its own listing; the snapshot is fixed, so a directory
carries its children. -/
inductive FSEntry where
  | file (name : String)
  | dir (name : String) (children : List FSEntry)

/-- `shouldIgnore` from `src/retrieve.ts`: case-insensitive comparison
against `DEFAULT_IGNORES`. -/
def shouldIgnore (name : String) : Bool :=
  DEFAULT_IGNORES.any (fun ignore => strToLower ignore == strToLower name)

/-- The indentation `"  ".repeat(n)` used by `buildRepoMap`. -/
def indentStr (n : Nat) : String := String.join (List.replicate n "  ")

/-- `path.relative(root, path.join(current, name))` as maintained along the
walk: the root is `"."`, a child extends its parent's relative path. -/
def joinRel (rel name : String) : String := if rel == "." then name else rel ++ "/" ++ name

mutual

/-- The recursive `walk` of `buildRepoMap` in `src/retrieve.ts`: it receives
the listing of the current directory (`fs.readdir`), the directory's
relative path and its depth; it emits nothing past `depth`, otherwise its
own line followed by the loop over its entries. -/
def walk (depth : Nat) (entries : List FSEntry) (rel : String) (currentDepth : Nat) :
    List String :=
  if currentDepth > depth then []
  else (indentStr currentDepth ++ rel ++ "/") :: walkLoop depth entries rel currentDepth

/-- The `for` loop inside `walk`: a file is listed one level deeper than its
parent with no depth guard; an ignored directory is skipped before any
recursion; any other directory is recursed into. -/
def walkLoop (depth : Nat) : List FSEntry → String → Nat → List String
  | [], _, _ => []
  | FSEntry.dir name children :: rest, rel, currentDepth =>
    (if shouldIgnore name then []
     else walk depth children (joinRel rel name) (currentDepth + 1)) ++
      walkLoop depth rest rel currentDepth
  | FSEntry.file name :: rest, rel, currentDepth =>
    (indentStr (currentDepth + 1) ++ name) :: walkLoop depth rest rel currentDepth

end

/-- `buildRepoMap` from `src/retrieve.ts` on a snapshot of the root's
listing: `walk(root, 0)` with the root's relative path `"."` (from
`path.relative(root, root) || "."`), joined with newlines. -/
def buildRepoMap (rootEntries : List FSEntry) (depth : Nat) : String :=
  String.intercalate "\n" (walk depth rootEntries "." 0)

/-- C5 counterexample: for a non-empty root holding the single file
`a.txt`, `buildRepoMap(root, 0)` is not only the root line — the file push
in `walk` is not depth-guarded, so the root's immediate files are listed
even at depth 0. -/
theorem buildRepoMap_depth_zero_lists_root_files :
    buildRepoMap [FSEntry.file "a.txt"] 0 = "./\n  a.txt" ∧
    buildRepoMap [FSEntry.file "a.txt"] 0 ≠ "./" := by
  have h : buildRepoMap [FSEntry.file "a.txt"] 0 = "./\n  a.txt" := by
    simp [buildRepoMap, walk, walkLoop, indentStr]
    rfl
  refine ⟨h, ?_⟩
  rw [h]
  decide

/-- C5 (amended): `buildRepoMap(root, 0)` returns the root line followed by
one line per immediate file of the root, in listing order, and nothing from
any subdirectory; in general the walk emits nothing for a directory at a
level beyond `depth` and skips every directory whose name
case-insensitively matches the ignore set. -/
theorem buildRepoMap_depth_bound (es : List FSEntry) :
    (buildRepoMap es 0 = String.intercalate "\n" ("./" :: es.filterMap (fun e =>
        match e with
        | FSEntry.file name => some ("  " ++ name)
        | FSEntry.dir _ _ => none))) ∧
    (∀ depth rest name children rel currentDepth, shouldIgnore name = true →
        walkLoop depth (FSEntry.dir name children :: rest) rel currentDepth =
          walkLoop depth rest rel currentDepth) ∧
    (∀ depth entries rel currentDepth, depth < currentDepth →
        walk depth entries rel currentDepth = []) := by
  have hwalk0 : ∀ depth entries rel currentDepth, depth < currentDepth →
      walk depth entries rel currentDepth = [] := by
    intro depth entries rel currentDepth h
    unfold walk
    rw [if_pos h]
  refine ⟨?_, ?_, hwalk0⟩
  · have hloop : ∀ fs : List FSEntry, walkLoop 0 fs "." 0 = fs.filterMap (fun e =>
        match e with
        | FSEntry.file name => some ("  " ++ name)
        | FSEntry.dir _ _ => none) := by
      intro fs
      induction fs with
      | nil => simp [walkLoop]
      | cons e rest ih =>
        cases e with
        | file name =>
          have hind : indentStr (0 + 1) = "  " := rfl
          simp [walkLoop, hind, ih]
        | dir name children =>
          by_cases h : shouldIgnore name = true
          · simp [walkLoop, h, ih]
          · simp [walkLoop, h, ih, hwalk0 0 children (joinRel "." name) 1 (by omega)]
    unfold buildRepoMap
    unfold walk
    rw [if_neg (by decide)]
    rw [hloop es]
    have hroot : indentStr 0 ++ "." ++ "/" = "./" := rfl
    rw [hroot]
  · intro depth rest name children rel currentDepth h
    simp [walkLoop, h]

/-- Witness for C5's amended statement: a concrete ignored directory
contributes nothing to the loop, and a directory past the depth bound emits
nothing. -/
theorem buildRepoMap_depth_bound_witness :
    walkLoop 3 [FSEntry.dir "node_modules" [FSEntry.file "x.js"]] "." 0 =
      walkLoop 3 [] "." 0 ∧
    walk 0 [FSEntry.file "b.ts"] "src" 1 = [] := by
  constructor
  · exact (buildRepoMap_depth_bound []).2.1 3 [] "node_modules" [FSEntry.file "x.js"] "." 0
      (by decide)
  · exact (buildRepoMap_depth_bound []).2.2 0 [FSEntry.file "b.ts"] "src" 1 (by decide)

/-- `readFileCapped` from `src/retrieve.ts`: file content as a character
list (JS caps by `string.length`, i.e. code units), returned whole when
within the limit and cut with `slice(0, limit)` otherwise. -/
def readFileCapped (data : List Char) (limit : Nat) : List Char :=
  if data.length ≤ limit then data else data.take limit

/-- `readFilesSafe` from `src/retrieve.ts`.  The filesystem is the oracle
`fileContents` mapping a resolved absolute path to its content (`none`
models a read error, which the code does not catch).  Each requested path
goes through `resolveSafePath` first; any failure aborts the whole batch;
the result is keyed by the original requested path. -/
def readFilesSafe (fileContents : String → Option (List Char)) (root : String) :
    List String → Except String (List (String × List Char))
  | [] => Except.ok []
  | file :: rest =>
    match resolveSafePath root file with
    | Except.error e => Except.error e
    | Except.ok resolved =>
      match fileContents resolved with
      | none => Except.error ("ENOENT: " ++ resolved)
      | some data =>
        match readFilesSafe fileContents root rest with
        | Except.error e => Except.error e
        | Except.ok results => Except.ok ((file, readFileCapped data 60000) :: results)

/-- C6: for a file of exactly 60001 characters whose path passes the
Safety Boundary, `readFilesSafe` returns, keyed by the original requested
path (not the resolved absolute path), content of length exactly 60000
that is a strict prefix of the original content. -/
theorem readFilesSafe_truncates_and_keys_by_request
    (fileContents : String → Option (List Char)) (root file resolved : String)
    (data : List Char)
    (hres : resolveSafePath root file = Except.ok resolved)
    (hread : fileContents resolved = some data)
    (hlen : data.length = 60001) :
    readFilesSafe fileContents root [file] = Except.ok [(file, data.take 60000)] ∧
    (data.take 60000).length = 60000 ∧
    data.take 60000 <+: data ∧
    data.take 60000 ≠ data := by
  have hcap : readFileCapped data 60000 = data.take 60000 := by
    unfold readFileCapped
    rw [if_neg]
    rw [hlen]
    omega
  have hlen' : (data.take 60000).length = 60000 := by
    rw [List.length_take, hlen]
    omega
  refine ⟨?_, hlen', List.take_prefix 60000 data, ?_⟩
  · simp [readFilesSafe, hres, hread, hcap]
  · intro h
    rw [h, hlen] at hlen'
    exact absurd hlen' (by omega)

/-- Witness for C6 at a concrete 60001-character file. -/
theorem readFilesSafe_truncates_and_keys_by_request_witness :
    readFilesSafe
        (fun p => if p == "/repo/notes.txt" then some (List.replicate 60001 'a') else none)
        "/repo" ["notes.txt"] =
      Except.ok [("notes.txt", (List.replicate 60001 'a').take 60000)] ∧
    ((List.replicate 60001 'a').take 60000).length = 60000 ∧
    (List.replicate 60001 'a').take 60000 <+: List.replicate 60001 'a' ∧
    (List.replicate 60001 'a').take 60000 ≠ List.replicate 60001 'a' :=
  readFilesSafe_truncates_and_keys_by_request
    (fun p => if p == "/repo/notes.txt" then some (List.replicate 60001 'a') else none)
    "/repo" "notes.txt" "/repo/notes.txt" (List.replicate 60001 'a')
    (by rfl) (by rfl) (List.length_replicate 60001 'a')

/-- Instrumentation threaded through the verification loop: the number of
command invocations so far (`calls`, indexing the `oracle`), the number of
fix cycles entered (`fixes`, indexing `fixOk`), and the number of outer
attempts started. -/
structure VerifyState where
  calls : Nat
  fixes : Nat
  attempts : Nat

/-- One `runCommand` invocation inside `verifyCommands`: the oracle decides
whether the n-th command execution of the run exits with code 0. -/
def runCmdOracle (oracle : Nat → Bool) (s : VerifyState) : Bool × VerifyState :=
  (oracle s.calls, VerifyState.mk (s.calls + 1) s.fixes s.attempts)

/-- The per-attempt `for` loop of `verifyCommands` in `src/session.ts`: run
the commands in order; on the first non-zero exit enter the fix cycle
(context gathering, fixer call and `applyPatch` of the fix, abstracted by
the `fixOk` oracle — `false` models a throw anywhere in that block, which
propagates) and break immediately.  Returns whether a failure occurred. -/
def attemptCmds (oracle fixOk : Nat → Bool) :
    List String → VerifyState → Except String Bool × VerifyState
  | [], s => (Except.ok false, s)
  | _cmd :: rest, s =>
    let r := runCmdOracle oracle s
    if r.1 then attemptCmds oracle fixOk rest r.2
    else
      let s1 := VerifyState.mk r.2.calls (r.2.fixes + 1) r.2.attempts
      if fixOk r.2.fixes then (Except.ok true, s1)
      else (Except.error "patch failed", s1)

/-- `runAll` from `src/session.ts`: run every command in order, stopping at
the first non-zero exit. -/
def runAllCmds (oracle : Nat → Bool) : List String → VerifyState → Bool × VerifyState
  | [], s => (true, s)
  | _cmd :: rest, s =>
    let r := runCmdOracle oracle s
    if r.1 then runAllCmds oracle rest r.2 else (false, r.2)

/-- The `while (attempt < 3)` loop of `verifyCommands`, with the remaining
iterations as fuel (started at 3): each iteration increments the attempt
counter, runs the per-attempt loop, returns on a clean pass, otherwise
reruns the whole sequence and returns on a clean recheck; an exhausted
fuel is the `Verification failed after three attempts.` throw. -/
def verifyLoop (oracle fixOk : Nat → Bool) (cmds : List String) :
    Nat → VerifyState → Except String Unit × VerifyState
  | 0, s => (Except.error "Verification failed after three attempts.", s)
  | fuel + 1, s =>
    let s0 := VerifyState.mk s.calls s.fixes (s.attempts + 1)
    match attemptCmds oracle fixOk cmds s0 with
    | (Except.error e, s1) => (Except.error e, s1)
    | (Except.ok failed, s1) =>
      if failed then
        let r := runAllCmds oracle cmds s1
        if r.1 then (Except.ok (), r.2)
        else verifyLoop oracle fixOk cmds fuel r.2
      else (Except.ok (), s1)

/-- `verifyCommands` from `src/session.ts` (the commands are
`plan.commands ?? []`): an empty list returns immediately, otherwise the
bounded attempt loop runs. -/
def verifyCommands (oracle fixOk : Nat → Bool) (cmds : List String) :
    Except String Unit × VerifyState :=
  if cmds.isEmpty then (Except.ok (), VerifyState.mk 0 0 0)
  else verifyLoop oracle fixOk cmds 3 (VerifyState.mk 0 0 0)

/-- C4: the verification loop is bounded by exactly 3 outer attempts — when
every command execution fails (so the first command of every pass fails)
and every fix applies cleanly without making anything pass, the loop
performs exactly 3 attempts, each entering exactly one fix cycle, and then
fails fatally with the three-attempts error; when every execution succeeds,
there is exactly one attempt, zero fix cycles, and one execution per
command; and an empty command list is a no-op success. -/
theorem verifyCommands_attempt_bounds (oracle fixOk : Nat → Bool) (cmds : List String) :
    (cmds = [] → verifyCommands oracle fixOk cmds = (Except.ok (), VerifyState.mk 0 0 0)) ∧
    ((∀ n, oracle n = false) → (∀ n, fixOk n = true) → cmds ≠ [] →
      verifyCommands oracle fixOk cmds =
        (Except.error "Verification failed after three attempts.", VerifyState.mk 6 3 3)) ∧
    ((∀ n, oracle n = true) → cmds ≠ [] →
      verifyCommands oracle fixOk cmds = (Except.ok (), VerifyState.mk cmds.length 0 1)) := by
  refine ⟨?_, ?_, ?_⟩
  · intro h
    subst h
    simp [verifyCommands]
  · intro h1 h2 hne
    obtain ⟨c, rest, rfl⟩ : ∃ c rest, cmds = c :: rest := by
      cases cmds with
      | nil => exact absurd rfl hne
      | cons c rest => exact ⟨c, rest, rfl⟩
    have hatt : ∀ s, attemptCmds oracle fixOk (c :: rest) s =
        (Except.ok true, VerifyState.mk (s.calls + 1) (s.fixes + 1) s.attempts) := by
      intro s
      simp [attemptCmds, runCmdOracle, h1, h2]
    have hrun : ∀ s, runAllCmds oracle (c :: rest) s =
        (false, VerifyState.mk (s.calls + 1) s.fixes s.attempts) := by
      intro s
      simp [runAllCmds, runCmdOracle, h1]
    simp [verifyCommands, verifyLoop, hatt, hrun]
  · intro h1 hne
    have hatt : ∀ cs : List String, ∀ s, attemptCmds oracle fixOk cs s =
        (Except.ok false, VerifyState.mk (s.calls + cs.length) s.fixes s.attempts) := by
      intro cs
      induction cs with
      | nil => intro s; simp [attemptCmds]
      | cons c rest ih =>
        intro s
        simp [attemptCmds, runCmdOracle, h1, ih]
        omega
    obtain ⟨c, rest, rfl⟩ : ∃ c rest, cmds = c :: rest := by
      cases cmds with
      | nil => exact absurd rfl hne
      | cons c rest => exact ⟨c, rest, rfl⟩
    simp [verifyCommands, verifyLoop, hatt]

/-- Witness for C4 at concrete oracles and command lists: an always-failing
command exhausts exactly 3 attempts and 3 fixes, an always-succeeding pair
of commands verifies in one attempt with no fixes, and the empty list is a
no-op. -/
theorem verifyCommands_attempt_bounds_witness :
    verifyCommands (fun _ => false) (fun _ => true) ["make"] =
      (Except.error "Verification failed after three attempts.", VerifyState.mk 6 3 3) ∧
    verifyCommands (fun _ => true) (fun _ => true) ["lint", "test"] =
      (Except.ok (), VerifyState.mk 2 0 1) ∧
    verifyCommands (fun _ => false) (fun _ => true) [] =
      (Except.ok (), VerifyState.mk 0 0 0) := by
  refine ⟨?_, ?_, ?_⟩
  · exact (verifyCommands_attempt_bounds (fun _ => false) (fun _ => true) ["make"]).2.1
      (fun _ => rfl) (fun _ => rfl) (by simp)
  · exact (verifyCommands_attempt_bounds (fun _ => true) (fun _ => true) ["lint", "test"]).2.2
      (fun _ => rfl) (by simp)
  · exact (verifyCommands_attempt_bounds (fun _ => false) (fun _ => true) []).1 rfl

theorem splitOnChar_of_not_mem (sep : Char) (cs : List Char) (h : sep ∉ cs) :
    splitOnChar sep cs = [cs] := by
  induction cs with
  | nil => rfl
  | cons c rest ih =>
    have hc : ¬ c = sep := fun e => h (e ▸ List.mem_cons_self c rest)
    have hr : splitOnChar sep rest = [rest] := ih (fun hm => h (List.mem_cons_of_mem c hm))
    simp [splitOnChar, hc, hr]

theorem splitOnChar_append (sep : Char) (xs ys : List Char) (h : sep ∉ xs) :
    splitOnChar sep (xs ++ sep :: ys) = xs :: splitOnChar sep ys := by
  induction xs with
  | nil => simp [splitOnChar]
  | cons c rest ih =>
    have hc : ¬ c = sep := fun e => h (e ▸ List.mem_cons_self c rest)
    have hr := ih (fun hm => h (List.mem_cons_of_mem c hm))
    simp [splitOnChar, hc, hr]

theorem replaceFirst_of_not_infix (pat l : List Char) (h : ¬ pat <:+: l) :
    replaceFirst pat l = l := by
  induction l with
  | nil => rfl
  | cons c rest ih =>
    have hp : pat.isPrefixOf (c :: rest) = false := by
      rcases Bool.eq_false_or_eq_true (pat.isPrefixOf (c :: rest)) with ht | hf
      · exact absurd (( List.isPrefixOf_iff_prefix).mp ht).isInfix h
      · exact hf
    have hr : ¬ pat <:+: rest := fun hinf => h (List.infix_cons hinf)
    simp [replaceFirst, hp, ih hr]

/-- A unified-diff header whose target file path contains a space: the path
is `p1 ++ " " ++ p2` and the header line is
`diff --git a/<p1> <p2> b/<p1> <p2>`. -/
def spacedHeader (p1 p2 : List Char) : String :=
  String.mk ("diff --git a/".data ++
    (p1 ++ (' ' :: (p2 ++ (' ' :: 'b' :: '/' :: (p1 ++ ' ' :: p2))))))

/-- C9: `extractFilesFromDiff` returns, for a header line, the third
space-separated token with the first occurrence of `b/` deleted — for a
target path `p1 ++ " " ++ p2` with a space this is the token `a/<p1>`, a
proper prefix of the full `a/`-prefixed target path; consequently
`applyPatch`'s per-file sensitivity, ignored-segment and extension checks
are evaluated exactly on that truncated token, not on the full target path
handed to the external apply process. -/
theorem extractFilesFromDiff_uses_truncated_a_token
    (p1 p2 : List Char)
    (hp1 : p1 ≠ []) (hs1 : ' ' ∉ p1) (hn1 : '\n' ∉ p1)
    (hb1 : ¬ ('b' :: '/' :: []) <:+: ('a' :: '/' :: p1))
    (hs2 : ' ' ∉ p2) (hn2 : '\n' ∉ p2) :
    extractFilesFromDiff (spacedHeader p1 p2) = [String.mk ('a' :: '/' :: p1)] ∧
    ('a' :: '/' :: p1) <+: ('a' :: '/' :: (p1 ++ ' ' :: p2)) ∧
    ('a' :: '/' :: p1) ≠ ('a' :: '/' :: (p1 ++ ' ' :: p2)) ∧
    (∀ opts : PatchOptions, ∀ payload : String × String,
        applyPatch (spacedHeader p1 p2) opts = Except.ok payload ↔
          (payload = (spacedHeader p1 p2, opts.root) ∧
           fileOk opts (String.mk ('a' :: '/' :: p1)) = true ∧
           (opts.allowDelete = true ∨
            strIncludes (spacedHeader p1 p2) "deleted file mode" = false))) := by
  have hdata : (spacedHeader p1 p2).data = "diff --git a/".data ++
      (p1 ++ (' ' :: (p2 ++ (' ' :: 'b' :: '/' :: (p1 ++ ' ' :: p2))))) := rfl
  have hnl : '\n' ∉ (spacedHeader p1 p2).data := by
    rw [hdata]
    intro hm
    rcases List.mem_append.mp hm with h | h
    · revert h
      decide
    · rcases List.mem_append.mp h with h1 | h1
      · exact hn1 h1
      · rcases List.mem_cons.mp h1 with h2 | h2
        · exact absurd h2 (by decide)
        · rcases List.mem_append.mp h2 with h3 | h3
          · exact hn2 h3
          · rcases List.mem_cons.mp h3 with h4 | h4
            · exact absurd h4 (by decide)
            · rcases List.mem_cons.mp h4 with h5 | h5
              · exact absurd h5 (by decide)
              · rcases List.mem_cons.mp h5 with h6 | h6
                · exact absurd h6 (by decide)
                · rcases List.mem_append.mp h6 with h7 | h7
                  · exact hn1 h7
                  · rcases List.mem_cons.mp h7 with h8 | h8
                    · exact absurd h8 (by decide)
                    · exact hn2 h8
  have hsA : ' ' ∉ ('a' :: '/' :: p1) := by
    intro hm
    rcases List.mem_cons.mp hm with h | h
    · exact absurd h (by decide)
    · rcases List.mem_cons.mp h with h2 | h2
      · exact absurd h2 (by decide)
      · exact hs1 h2
  have hsB : ' ' ∉ ('b' :: '/' :: p1) := by
    intro hm
    rcases List.mem_cons.mp hm with h | h
    · exact absurd h (by decide)
    · rcases List.mem_cons.mp h with h2 | h2
      · exact absurd h2 (by decide)
      · exact hs1 h2
  have hform : (spacedHeader p1 p2).data =
      "diff".data ++ ' ' :: ("--git".data ++ ' ' :: (('a' :: '/' :: p1) ++ ' ' ::
        (p2 ++ ' ' :: (('b' :: '/' :: p1) ++ ' ' :: p2)))) := rfl
  have hsplit : splitOnChar ' ' (spacedHeader p1 p2).data =
      ["diff".data, "--git".data, 'a' :: '/' :: p1, p2, 'b' :: '/' :: p1, p2] := by
    rw [hform]
    rw [splitOnChar_append ' ' "diff".data _ (by decide)]
    rw [splitOnChar_append ' ' "--git".data _ (by decide)]
    rw [splitOnChar_append ' ' ('a' :: '/' :: p1) _ hsA]
    rw [splitOnChar_append ' ' p2 _ hs2]
    rw [splitOnChar_append ' ' ('b' :: '/' :: p1) _ hsB]
    rw [splitOnChar_of_not_mem ' ' p2 hs2]
  have hextract : extractFileFromLine (spacedHeader p1 p2).data = 'a' :: '/' :: p1 := by
    unfold extractFileFromLine
    rw [hsplit]
    show replaceFirst ('b' :: '/' :: []) ('a' :: '/' :: p1) = 'a' :: '/' :: p1
    exact replaceFirst_of_not_infix _ _ hb1
  have hmatch : headerMatch (spacedHeader p1 p2).data = true := by
    obtain ⟨q, qs, rfl⟩ := List.exists_cons_of_ne_nil hp1
    simp only [headerMatch, Bool.and_eq_true, decide_eq_true_eq]
    constructor
    · rw [ List.isPrefixOf_iff_prefix]
      exact ⟨_, rfl⟩
    · have hred : (((spacedHeader (q :: qs) p2).data.drop 13).tail) =
          qs ++ ((' ' :: p2) ++ ((' ' :: 'b' :: '/' :: []) ++ ((q :: qs) ++ ' ' :: p2))) := rfl
      rw [hred]
      have hsplit2 : qs ++ ((' ' :: p2) ++ ((' ' :: 'b' :: '/' :: []) ++ ((q :: qs) ++ ' ' :: p2)))
          = ((qs ++ (' ' :: p2)) ++ (' ' :: 'b' :: '/' :: [])) ++ ((q :: qs) ++ ' ' :: p2) := by
        simp [List.append_assoc]
      rw [hsplit2]
      rw [List.dropLast_append_of_ne_nil _ (by simp)]
      exact ⟨qs ++ (' ' :: p2), ((q :: qs) ++ ' ' :: p2).dropLast, rfl⟩
  have hfiles : extractFilesFromDiff (spacedHeader p1 p2) = [String.mk ('a' :: '/' :: p1)] := by
    unfold extractFilesFromDiff
    rw [splitOnChar_of_not_mem '\n' ((spacedHeader p1 p2).data) hnl]
    rw [List.filter_cons]
    rw [hmatch]
    simp only [if_true, List.filter_nil, List.map_cons, List.map_nil]
    rw [hextract]
    have hne2 : (String.mk ('a' :: '/' :: p1) != "") = true := by
      rw [bne_iff_ne]
      intro hcontra
      have hdd : ('a' :: '/' :: p1) = "".data := congrArg String.data hcontra
      exact List.noConfusion hdd
    simp [List.filter_cons, hne2]
  have hpre : ('a' :: '/' :: p1) <+: ('a' :: '/' :: (p1 ++ ' ' :: p2)) := ⟨' ' :: p2, rfl⟩
  have hneq : ('a' :: '/' :: p1) ≠ ('a' :: '/' :: (p1 ++ ' ' :: p2)) := by
    intro hcontra
    have := congrArg List.length hcontra
    simp [List.length_append] at this
  refine ⟨hfiles, hpre, hneq, ?_⟩
  intro opts payload
  rw [applyPatch_ok_iff]
  rw [hfiles]
  simp

/-- Witness for C9 at the concrete target path `my file.txt`: the checked
token is `a/my`, a proper prefix of `a/my file.txt`. -/
theorem extractFilesFromDiff_uses_truncated_a_token_witness :
    extractFilesFromDiff (spacedHeader "my".data "file.txt".data) =
      [String.mk ('a' :: '/' :: "my".data)] ∧
    ('a' :: '/' :: "my".data) <+: ('a' :: '/' :: ("my".data ++ ' ' :: "file.txt".data)) ∧
    ('a' :: '/' :: "my".data) ≠ ('a' :: '/' :: ("my".data ++ ' ' :: "file.txt".data)) := by
  have h := extractFilesFromDiff_uses_truncated_a_token "my".data "file.txt".data
    (by decide) (by decide) (by decide) (by decide) (by decide) (by decide)
  exact ⟨h.1, h.2.1, h.2.2.1⟩

end CodexRoles
